import Mathlib

/-!
# Verification of the BFS (Kahn's algorithm) cycle detector

Shallow embedding of `src/cyclic_bfs.cpp`.  The C++ program represents a
directed graph as a square 0/1 adjacency matrix (`std::vector<std::vector<int>>`),
computes in-degrees, runs Kahn's worklist algorithm while recording a
`parent` entry for every relaxed edge, classifies the graph as cyclic when
the processed count is below the vertex count, and then attempts to
reconstruct a witness cycle by walking `parent` links backwards.

The embedding below mirrors the source:
* C++ `int` cells of the in-degree and parent tables become `Int`
  (so that a decrement below zero, or the `-1` parent sentinel, is visible);
* the `while` loops become fuel-indexed recursions; separate theorems show
  the fuel bounds used by `detectCycleBFS` are sufficient;
* every indexing operation of the reconstruction phase is guarded: an
  access with an index outside `[0, numVertices)` (which is undefined
  behaviour in the C++) is reported as `oob`.
-/

set_option maxHeartbeats 1000000

namespace CyclicBFS

/-- Entry `(i, j)` of the adjacency matrix: the C++ reads `adjMatrix[i][j]`.
Out-of-range reads are totalized to `0`; every theorem that relies on this
definition only evaluates it at indices that are in range for the matrices
it talks about (square matrices, indices below `adj.length`). -/
def entry (adj : List (List Nat)) (i j : Nat) : Nat :=
  (((adj.get? i).getD []).get? j).getD 0

/-- The edge test of the source: `adjMatrix[u][v] == 1`. -/
def edgeB (adj : List (List Nat)) (u v : Nat) : Bool :=
  decide (entry adj u v = 1)

/-- A well-formed input in the sense of the specification: a square matrix
whose entries are all `0` or `1`. -/
def wellFormed (adj : List (List Nat)) : Prop :=
  (∀ row ∈ adj, row.length = adj.length) ∧ ∀ row ∈ adj, ∀ x ∈ row, x = 0 ∨ x = 1

instance (adj : List (List Nat)) : Decidable (wellFormed adj) := by
  unfold wellFormed; infer_instance

/-- One row of the in-degree computation (lines 37-43 of the source): for a
fixed `i`, bump `inDegree[j]` for every `j` with `adjMatrix[i][j] == 1`. -/
def bumpRow (adj : List (List Nat)) (i : Nat) (d : List Int) : List Int :=
  (List.range adj.length).foldl
    (fun d j => if edgeB adj i j then d.set j (d.getD j 0 + 1) else d) d

/-- The in-degree table as computed by the double loop of the source. -/
def computeInDegrees (adj : List (List Nat)) : List Int :=
  (List.range adj.length).foldl (fun d i => bumpRow adj i d)
    (List.replicate adj.length (0 : Int))

/-- The inner loop of the worklist processing (lines 60-71 of the source):
for each `v` in `vs` (the source iterates `v = 0 .. numVertices-1`) with
`adjMatrix[u][v] == 1`, decrement `inDegree[v]`, set `parent[v] = u`, and
push `v` onto the back of the queue if its in-degree just became `0`. -/
def relax (adj : List (List Nat)) (u : Nat) :
    List Nat → List Int → List Int → List Nat → List Int × List Int × List Nat
  | [], inDeg, par, q => (inDeg, par, q)
  | v :: vs, inDeg, par, q =>
    if edgeB adj u v then
      let inDeg2 := inDeg.set v (inDeg.getD v 0 - 1)
      let par2 := par.set v (Int.ofNat u)
      let q2 := if inDeg2.getD v 0 = 0 then q ++ [v] else q
      relax adj u vs inDeg2 par2 q2
    else
      relax adj u vs inDeg par q

/-- The mutable state of the worklist loop of `detectCycleBFS`. -/
structure KahnState where
  inDegree : List Int
  parent : List Int
  q : List Nat
  processedCount : Nat
deriving DecidableEq

/-- One iteration of the `while (!q.empty())` loop (lines 54-72):
pop the front vertex, count it as processed, and relax its out-edges.
`none` signals that the queue is empty and the loop has finished. -/
def kahnStep (adj : List (List Nat)) (s : KahnState) : Option KahnState :=
  match s.q with
  | [] => none
  | u :: qrest =>
    let r := relax adj u (List.range adj.length) s.inDegree s.parent qrest
    some ⟨r.1, r.2.1, r.2.2, s.processedCount + 1⟩

/-- Run the worklist loop for at most `fuel` iterations (the loop stops by
itself once the queue is empty; `kahn_fuel_sufficient` below shows
`adj.length` iterations always reach the empty queue). -/
def kahnRun (adj : List (List Nat)) : Nat → KahnState → KahnState
  | 0, s => s
  | fuel + 1, s =>
    match kahnStep adj s with
    | none => s
    | some s2 => kahnRun adj fuel s2

/-- The state of the worklist loop right before its first iteration
(lines 33-53 of the source). -/
def initState (adj : List (List Nat)) : KahnState :=
  let n := adj.length
  let inDeg0 := computeInDegrees adj
  ⟨inDeg0, List.replicate n (-1 : Int),
    (List.range n).filter (fun i => decide (inDeg0.getD i 0 = 0)), 0⟩

/-- Outcome of the backward parent walk (lines 92-95 of the source).
`oob` means the C++ would have read `visitedInCycle[current]` with
`current` outside `[0, numVertices)` — undefined behaviour. -/
inductive WalkOutcome where
  | found (c : Int)
  | oob
  | fuelOut
deriving DecidableEq

/-- The walk `while (!visitedInCycle[current]) { visitedInCycle[current] = true;
current = parent[current]; }`.  Every access is bounds-checked; an access at a
negative index or at an index `≥ visited.length` yields `oob`. -/
def traceWalk (par : List Int) : Nat → List Bool → Int → WalkOutcome
  | 0, _, _ => .fuelOut
  | fuel + 1, visited, current =>
    if 0 ≤ current ∧ current < (visited.length : Int) then
      if visited.getD current.toNat false then .found current
      else traceWalk par fuel (visited.set current.toNat true) (par.getD current.toNat 0)
    else .oob

/-- Outcome of the cycle-collection loop (lines 98-104 of the source). -/
inductive CollectOutcome where
  | path (p : List Int)
  | oob
  | fuelOut
deriving DecidableEq

/-- The `do { cyclePath.push_back(current); current = parent[current]; }
while (current != cycleStartNode);` loop, followed by the final
`std::reverse`.  The access `parent[current]` is bounds-checked. -/
def collectCycle (par : List Int) (cycleStart : Int) :
    Nat → Int → List Int → CollectOutcome
  | 0, _, _ => .fuelOut
  | fuel + 1, current, acc =>
    if 0 ≤ current ∧ current < (par.length : Int) then
      let acc2 := acc ++ [current]
      let next := par.getD current.toNat 0
      if next = cycleStart then .path acc2.reverse
      else collectCycle par cycleStart fuel next acc2
    else .oob

/-- How a cyclic classification ends: with a reconstructed witness path,
with an out-of-bounds access during reconstruction (undefined behaviour in
the C++), or with an exhausted fuel bound (shown impossible below). -/
inductive CycleReport where
  | witness (p : List Int)
  | oobAccess
  | fuelOut
deriving DecidableEq

/-- The overall result of `detectCycleBFS`: the early return for an empty
graph (line 29), the ACYCLIC classification (line 113), or the CYCLIC
classification (line 76) together with the fate of the reconstruction. -/
inductive DetectResult where
  | graphEmpty
  | acyclic
  | cyclic (r : CycleReport)
deriving DecidableEq

/-- The function `detectCycleBFS` of the source (lines 26-115). -/
def detectCycleBFS (adj : List (List Nat)) : DetectResult :=
  let numVertices := adj.length
  if numVertices = 0 then .graphEmpty
  else
    let s := kahnRun adj numVertices (initState adj)
    if s.processedCount < numVertices then
      let cycleNode : Int :=
        match (List.range numVertices).find? (fun i => decide (0 < s.inDegree.getD i 0)) with
        | some i => Int.ofNat i
        | none => -1
      match traceWalk s.parent (numVertices + 1)
          (List.replicate numVertices false) cycleNode with
      | .fuelOut => .cyclic .fuelOut
      | .oob => .cyclic .oobAccess
      | .found c =>
        match collectCycle s.parent c (numVertices + 1) c [] with
        | .fuelOut => .cyclic .fuelOut
        | .oob => .cyclic .oobAccess
        | .path p => .cyclic (.witness p)
    else .acyclic

/-- Ghost-instrumented worklist state: identical to `KahnState` except that
instead of the processed counter it records the list of popped vertices in
pop order (`processedCount = popped.length`, see `kahnRun_sim`). -/
structure GState where
  inDeg : List Int
  par : List Int
  q : List Nat
  popped : List Nat

/-- Instrumented version of `kahnStep`. -/
def kahnStepG (adj : List (List Nat)) (s : GState) : Option GState :=
  match s.q with
  | [] => none
  | u :: qrest =>
    let r := relax adj u (List.range adj.length) s.inDeg s.par qrest
    some ⟨r.1, r.2.1, r.2.2, s.popped ++ [u]⟩

/-- Instrumented version of `kahnRun`. -/
def kahnRunG (adj : List (List Nat)) : Nat → GState → GState
  | 0, s => s
  | fuel + 1, s =>
    match kahnStepG adj s with
    | none => s
    | some s2 => kahnRunG adj fuel s2

/-- Instrumented version of `initState`. -/
def initG (adj : List (List Nat)) : GState :=
  let n := adj.length
  let inDeg0 := computeInDegrees adj
  ⟨inDeg0, List.replicate n (-1 : Int),
    (List.range n).filter (fun i => decide (inDeg0.getD i 0 = 0)), []⟩

/-- The state of the worklist loop after it has run to completion. -/
def finalG (adj : List (List Nat)) : GState :=
  kahnRunG adj adj.length (initG adj)

/-- Number of in-neighbours of `v` drawn from the vertex list `l`. -/
def inCount (adj : List (List Nat)) (l : List Nat) (v : Nat) : Nat :=
  (l.filter (fun u => edgeB adj u v)).length

/-- The true in-degree of `v`: the number of `u < adj.length` with an edge
`u → v`. -/
def degIn (adj : List (List Nat)) (v : Nat) : Nat :=
  inCount adj (List.range adj.length) v

/-- Ground truth used by the specification: the graph has a directed cycle,
i.e. a nonempty vertex list `c` inside the vertex range, with an edge
between each pair of consecutive entries and an edge from the last entry
back to the first. -/
def HasCycle (adj : List (List Nat)) : Prop :=
  ∃ c : List Nat, c ≠ [] ∧ (∀ v ∈ c, v < adj.length) ∧
    List.Chain' (fun a b => edgeB adj a b = true) c ∧
    edgeB adj (c.getLastD 0) (c.headD 0) = true

/-- The loop invariant of the (instrumented) worklist loop. -/
structure Inv (adj : List (List Nat)) (s : GState) : Prop where
  len_inDeg : s.inDeg.length = adj.length
  len_par : s.par.length = adj.length
  popped_lt : ∀ v ∈ s.popped, v < adj.length
  q_lt : ∀ v ∈ s.q, v < adj.length
  popped_nodup : s.popped.Nodup
  q_nodup : s.q.Nodup
  disj : ∀ v ∈ s.popped, v ∉ s.q
  deg_eq : ∀ v < adj.length,
    s.inDeg.getD v 0 = (degIn adj v : Int) - (inCount adj s.popped v : Int)
  q_zero : ∀ v ∈ s.q, s.inDeg.getD v 0 = 0
  zero_iff : ∀ v < adj.length, (s.inDeg.getD v 0 = 0 ↔ v ∈ s.popped ∨ v ∈ s.q)
  popped_closed : ∀ v ∈ s.popped, ∀ u, edgeB adj u v = true → u ∈ s.popped
  popped_pairwise : s.popped.Pairwise (fun a b => edgeB adj b a = false)
  no_self : ∀ v, (v ∈ s.popped ∨ v ∈ s.q) → edgeB adj v v = false
  par_val : ∀ v < adj.length, s.par.getD v 0 = -1 ∨
    ∃ u, s.par.getD v 0 = Int.ofNat u ∧ u ∈ s.popped ∧ edgeB adj u v = true
  par_ord : ∀ v ∈ s.popped, ∀ u, s.par.getD v 0 = Int.ofNat u →
    s.popped.indexOf u < s.popped.indexOf v

/-! ## Generic list lemmas -/

theorem getD_set_eq {α : Type} (l : List α) (i : Nat) (a d : α) (h : i < l.length) :
    (l.set i a).getD i d = a := by
  rw [List.getD_eq_getD_get?, List.get?_set_eq_of_lt _ h]
  rfl

theorem getD_set_ne {α : Type} (l : List α) {i j : Nat} (a d : α) (h : i ≠ j) :
    (l.set i a).getD j d = l.getD j d := by
  rw [List.getD_eq_getD_get?, List.get?_set_ne _ _ h, ← List.getD_eq_getD_get?]

theorem getD_replicate {α : Type} (n i : Nat) (a d : α) :
    (List.replicate n a).getD i d = if i < n then a else d := by
  induction n generalizing i with
  | zero => simp [List.getD]
  | succ n ih =>
    cases i with
    | zero => simp [List.replicate]
    | succ i => simpa [List.replicate, List.getD] using ih i

theorem count_false_set {l : List Bool} {c : Nat} (hc : c < l.length)
    (hf : l.getD c false = false) :
    l.count false = ((l.set c true).count false) + 1 := by
  induction l generalizing c with
  | nil => simp at hc
  | cons b rest ih =>
    cases c with
    | zero =>
      simp only [List.getD_cons_zero] at hf
      subst hf
      simp [List.count_cons]
    | succ c =>
      have hrec := @ih c (by simpa using hc) (by simpa [List.getD_cons_succ] using hf)
      have hset : (b :: rest).set (c + 1) true = b :: rest.set c true := rfl
      rw [hset, List.count_cons, List.count_cons]
      cases b <;> simp <;> omega

theorem nodup_lt_length_le {l : List Nat} {n : Nat} (hnd : l.Nodup)
    (hlt : ∀ x ∈ l, x < n) : l.length ≤ n := by
  have hsub : l.toFinset ⊆ Finset.range n := by
    intro x hx
    simp only [List.mem_toFinset] at hx
    simpa using hlt x hx
  have := Finset.card_le_card hsub
  rwa [List.toFinset_card_of_nodup hnd, Finset.card_range] at this

theorem mem_of_nodup_subset_length_le {l₁ l₂ : List Nat} (h₁ : l₁.Nodup)
    (h₂ : l₂.Nodup) (hsub : ∀ x ∈ l₁, x ∈ l₂) (hlen : l₂.length ≤ l₁.length) :
    ∀ x ∈ l₂, x ∈ l₁ := by
  have hfsub : l₁.toFinset ⊆ l₂.toFinset := by
    intro x hx
    simp only [List.mem_toFinset] at hx ⊢
    exact hsub x hx
  have hcard : l₂.toFinset.card ≤ l₁.toFinset.card := by
    rw [List.toFinset_card_of_nodup h₁, List.toFinset_card_of_nodup h₂]
    exact hlen
  have heq : l₁.toFinset = l₂.toFinset := Finset.eq_of_subset_of_card_le hfsub hcard
  intro x hx
  have : x ∈ l₂.toFinset := List.mem_toFinset.mpr hx
  rw [← heq] at this
  exact List.mem_toFinset.mp this

theorem nodup_length_subset_le {l₁ l₂ : List Nat} (h₁ : l₁.Nodup) (h₂ : l₂.Nodup)
    (hsub : ∀ x ∈ l₁, x ∈ l₂) : l₁.length ≤ l₂.length := by
  have hfsub : l₁.toFinset ⊆ l₂.toFinset := by
    intro x hx
    simp only [List.mem_toFinset] at hx ⊢
    exact hsub x hx
  have := Finset.card_le_card hfsub
  rwa [List.toFinset_card_of_nodup h₁, List.toFinset_card_of_nodup h₂] at this

/-! ## Basic facts about `entry` and `edgeB` -/

theorem entry_eq_zero_of_ge (adj : List (List Nat)) (u v : Nat)
    (h : adj.length ≤ u) : entry adj u v = 0 := by
  unfold entry
  rw [List.get?_eq_none.mpr h]
  rfl

theorem edgeB_iff {adj : List (List Nat)} {u v : Nat} :
    edgeB adj u v = true ↔ entry adj u v = 1 := by
  unfold edgeB
  exact decide_eq_true_iff

theorem edgeB_source_lt {adj : List (List Nat)} {u v : Nat}
    (h : edgeB adj u v = true) : u < adj.length := by
  by_contra hge
  have := entry_eq_zero_of_ge adj u v (by omega)
  rw [edgeB_iff] at h
  omega

/-! ## Facts about `inCount` and `degIn` -/

theorem inCount_nil (adj : List (List Nat)) (v : Nat) : inCount adj [] v = 0 := rfl

theorem inCount_append (adj : List (List Nat)) (l₁ l₂ : List Nat) (v : Nat) :
    inCount adj (l₁ ++ l₂) v = inCount adj l₁ v + inCount adj l₂ v := by
  unfold inCount
  rw [List.filter_append, List.length_append]

theorem inCount_singleton (adj : List (List Nat)) (u v : Nat) :
    inCount adj [u] v = if edgeB adj u v then 1 else 0 := by
  unfold inCount
  by_cases h : edgeB adj u v <;> simp [h]

theorem inCount_le_degIn (adj : List (List Nat)) {popped : List Nat} (v : Nat)
    (hnd : popped.Nodup) (hlt : ∀ x ∈ popped, x < adj.length) :
    inCount adj popped v ≤ degIn adj v := by
  unfold degIn inCount
  apply nodup_length_subset_le (hnd.filter _) ((List.nodup_range _).filter _)
  intro x hx
  rw [List.mem_filter] at hx ⊢
  exact ⟨List.mem_range.mpr (hlt x hx.1), hx.2⟩

theorem all_popped_of_inCount_eq (adj : List (List Nat)) {popped : List Nat} {v : Nat}
    (hnd : popped.Nodup) (hlt : ∀ x ∈ popped, x < adj.length)
    (heq : inCount adj popped v = degIn adj v) :
    ∀ u, edgeB adj u v = true → u ∈ popped := by
  intro u hu
  have hnd1 : (popped.filter (fun u => edgeB adj u v)).Nodup := hnd.filter _
  have hnd2 : ((List.range adj.length).filter (fun u => edgeB adj u v)).Nodup :=
    (List.nodup_range _).filter _
  have hsub : ∀ x ∈ popped.filter (fun u => edgeB adj u v),
      x ∈ (List.range adj.length).filter (fun u => edgeB adj u v) := by
    intro x hx
    rw [List.mem_filter] at hx ⊢
    exact ⟨List.mem_range.mpr (hlt x hx.1), hx.2⟩
  have hlen : ((List.range adj.length).filter (fun u => edgeB adj u v)).length
      ≤ (popped.filter (fun u => edgeB adj u v)).length := by
    unfold inCount degIn inCount at heq
    omega
  have hmem := mem_of_nodup_subset_length_le hnd1 hnd2 hsub hlen u (by
    rw [List.mem_filter]
    exact ⟨List.mem_range.mpr (edgeB_source_lt hu), hu⟩)
  exact (List.mem_filter.mp hmem).1

theorem no_edge_of_degIn_zero (adj : List (List Nat)) {v : Nat}
    (h : degIn adj v = 0) : ∀ u, edgeB adj u v = false := by
  intro u
  by_contra hne
  have hu : edgeB adj u v = true := by
    cases hb : edgeB adj u v
    · exact absurd hb hne
    · rfl
  unfold degIn inCount at h
  rw [List.length_eq_zero] at h
  have := List.filter_eq_nil_iff.mp h u (List.mem_range.mpr (edgeB_source_lt hu))
  rw [hu] at this
  exact this rfl

/-! ## Characterization of `computeInDegrees` -/

theorem bump_fold_length (adj : List (List Nat)) (i : Nat) (js : List Nat)
    (d : List Int) :
    ((js.foldl (fun d j => if edgeB adj i j then d.set j (d.getD j 0 + 1) else d) d)).length
      = d.length := by
  induction js generalizing d with
  | nil => rfl
  | cons j js ih =>
    simp only [List.foldl_cons]
    rw [ih]
    by_cases h : edgeB adj i j <;> simp [h]

theorem bump_fold_getD (adj : List (List Nat)) (i : Nat) (js : List Nat)
    (hnd : js.Nodup) (d : List Int) (j : Nat) :
    ((js.foldl (fun d j => if edgeB adj i j then d.set j (d.getD j 0 + 1) else d) d)).getD j 0
      = if j ∈ js ∧ edgeB adj i j = true ∧ j < d.length
          then d.getD j 0 + 1 else d.getD j 0 := by
  induction js generalizing d with
  | nil => simp
  | cons j0 js ih =>
    have hnd' : js.Nodup := hnd.of_cons
    have hj0 : j0 ∉ js := by
      rw [List.nodup_cons] at hnd
      exact hnd.1
    simp only [List.foldl_cons]
    by_cases he : edgeB adj i j0
    · simp only [he, if_pos]
      rw [ih hnd']
      by_cases hjj : j = j0
      · subst hjj
        have hnotin : j ∉ js := hj0
        simp only [hnotin, false_and, if_neg, not_false_iff]
        by_cases hl : j < d.length
        · rw [getD_set_eq _ _ _ _ hl]
          simp [he, hl]
        · rw [List.set_eq_of_length_le (by omega)]
          simp only [List.mem_cons, true_or, true_and, he, true_and]
          rw [if_neg (by omega)]
      · rw [getD_set_ne _ _ _ (fun hh => hjj hh.symm), List.length_set]
        simp only [List.mem_cons]
        by_cases hin : j ∈ js
        · simp [hin, hjj]
        · simp [hin, hjj]
    · have he' : edgeB adj i j0 = false := by
        cases hb : edgeB adj i j0
        · rfl
        · exact absurd hb he
      simp only [he', Bool.false_eq_true, if_neg, not_false_iff]
      rw [ih hnd']
      by_cases hjj : j = j0
      · subst hjj
        simp [he', hj0]
      · simp only [List.mem_cons]
        by_cases hin : j ∈ js
        · simp [hin, hjj]
        · simp [hin, hjj]

theorem bumpRow_length (adj : List (List Nat)) (i : Nat) (d : List Int) :
    (bumpRow adj i d).length = d.length :=
  bump_fold_length adj i _ d

theorem bumpRow_getD (adj : List (List Nat)) (i : Nat) (d : List Int)
    (hd : d.length = adj.length) (j : Nat) (hj : j < adj.length) :
    (bumpRow adj i d).getD j 0
      = d.getD j 0 + (if edgeB adj i j = true then 1 else 0) := by
  unfold bumpRow
  rw [bump_fold_getD adj i _ (List.nodup_range _) d j]
  by_cases he : edgeB adj i j = true
  · rw [if_pos ⟨List.mem_range.mpr hj, he, by omega⟩, if_pos he]
  · rw [if_neg (by tauto), if_neg he]
    omega

theorem rows_fold_length (adj : List (List Nat)) (is : List Nat) (d : List Int) :
    ((is.foldl (fun d i => bumpRow adj i d) d)).length = d.length := by
  induction is generalizing d with
  | nil => rfl
  | cons i is ih =>
    simp only [List.foldl_cons]
    rw [ih, bumpRow_length]

theorem rows_fold_getD (adj : List (List Nat)) (is : List Nat) (d : List Int)
    (hd : d.length = adj.length) (j : Nat) (hj : j < adj.length) :
    ((is.foldl (fun d i => bumpRow adj i d) d)).getD j 0
      = d.getD j 0 + (inCount adj is j : Int) := by
  induction is generalizing d with
  | nil => simp [inCount_nil]
  | cons i is ih =>
    simp only [List.foldl_cons]
    rw [ih _ (by rw [bumpRow_length]; exact hd),
      bumpRow_getD adj i d hd j hj]
    have : inCount adj (i :: is) j
        = (if edgeB adj i j = true then 1 else 0) + inCount adj is j := by
      unfold inCount
      by_cases he : edgeB adj i j = true <;> simp [List.filter_cons, he] <;> omega
    rw [this]
    push_cast
    ring

theorem computeInDegrees_length (adj : List (List Nat)) :
    (computeInDegrees adj).length = adj.length := by
  unfold computeInDegrees
  rw [rows_fold_length, List.length_replicate]

theorem computeInDegrees_getD (adj : List (List Nat)) (j : Nat)
    (hj : j < adj.length) :
    (computeInDegrees adj).getD j 0 = (degIn adj j : Int) := by
  unfold computeInDegrees
  rw [rows_fold_getD adj _ _ (List.length_replicate _ _) j hj,
    getD_replicate, if_pos hj]
  unfold degIn
  simp

/-! ## Characterization of `relax` -/

theorem relax_lengths (adj : List (List Nat)) (u : Nat) (vs : List Nat)
    (inDeg par : List Int) (q : List Nat) :
    (relax adj u vs inDeg par q).1.length = inDeg.length ∧
      (relax adj u vs inDeg par q).2.1.length = par.length := by
  induction vs generalizing inDeg par q with
  | nil => exact ⟨rfl, rfl⟩
  | cons v vs ih =>
    by_cases he : edgeB adj u v = true
    · simp only [relax, he, if_pos]
      rcases ih (inDeg.set v (inDeg.getD v 0 - 1)) (par.set v (Int.ofNat u))
        (if (inDeg.set v (inDeg.getD v 0 - 1)).getD v 0 = 0 then q ++ [v] else q) with ⟨h1, h2⟩
      rw [h1, h2, List.length_set, List.length_set]
      exact ⟨rfl, rfl⟩
    · have he' : edgeB adj u v = false := by
        cases hb : edgeB adj u v
        · rfl
        · exact absurd hb he
      simp only [relax, he', Bool.false_eq_true, if_neg, not_false_iff]
      exact ih inDeg par q

theorem relax_inDeg_getD (adj : List (List Nat)) (u : Nat) (vs : List Nat)
    (hnd : vs.Nodup) (inDeg par : List Int) (q : List Nat) (j : Nat) :
    (relax adj u vs inDeg par q).1.getD j 0
      = if j ∈ vs ∧ edgeB adj u j = true ∧ j < inDeg.length
          then inDeg.getD j 0 - 1 else inDeg.getD j 0 := by
  induction vs generalizing inDeg par q with
  | nil => simp [relax]
  | cons v vs ih =>
    have hnd' : vs.Nodup := hnd.of_cons
    have hv : v ∉ vs := (List.nodup_cons.mp hnd).1
    by_cases he : edgeB adj u v = true
    · simp only [relax, he, if_pos]
      rw [ih hnd']
      by_cases hjv : j = v
      · subst hjv
        simp only [hv, false_and, if_neg, not_false_iff]
        by_cases hl : j < inDeg.length
        · rw [getD_set_eq _ _ _ _ hl]
          simp [he, hl]
        · rw [List.set_eq_of_length_le (by omega)]
          simp only [List.mem_cons, true_or, true_and, he, true_and]
          rw [if_neg (by omega)]
      · rw [getD_set_ne _ _ _ (fun hh => hjv hh.symm), List.length_set]
        simp only [List.mem_cons]
        by_cases hin : j ∈ vs
        · simp [hin, hjv]
        · simp [hin, hjv]
    · have he' : edgeB adj u v = false := by
        cases hb : edgeB adj u v
        · rfl
        · exact absurd hb he
      simp only [relax, he', Bool.false_eq_true, if_neg, not_false_iff]
      rw [ih hnd']
      by_cases hjv : j = v
      · subst hjv
        simp [he', hv]
      · simp only [List.mem_cons]
        by_cases hin : j ∈ vs
        · simp [hin, hjv]
        · simp [hin, hjv]

theorem relax_par_getD (adj : List (List Nat)) (u : Nat) (vs : List Nat)
    (hnd : vs.Nodup) (inDeg par : List Int) (q : List Nat) (j : Nat) :
    (relax adj u vs inDeg par q).2.1.getD j 0
      = if j ∈ vs ∧ edgeB adj u j = true ∧ j < par.length
          then Int.ofNat u else par.getD j 0 := by
  induction vs generalizing inDeg par q with
  | nil => simp [relax]
  | cons v vs ih =>
    have hnd' : vs.Nodup := hnd.of_cons
    have hv : v ∉ vs := (List.nodup_cons.mp hnd).1
    by_cases he : edgeB adj u v = true
    · simp only [relax, he, if_pos]
      rw [ih hnd']
      by_cases hjv : j = v
      · subst hjv
        simp only [hv, false_and, if_neg, not_false_iff]
        by_cases hl : j < par.length
        · rw [getD_set_eq _ _ _ _ hl]
          simp [he, hl]
        · rw [List.set_eq_of_length_le (by omega)]
          simp only [List.mem_cons, true_or, true_and, he, true_and]
          rw [if_neg (by omega)]
      · rw [getD_set_ne _ _ _ (fun hh => hjv hh.symm), List.length_set]
        simp only [List.mem_cons]
        by_cases hin : j ∈ vs
        · simp [hin, hjv]
        · simp [hin, hjv]
    · have he' : edgeB adj u v = false := by
        cases hb : edgeB adj u v
        · rfl
        · exact absurd hb he
      simp only [relax, he', Bool.false_eq_true, if_neg, not_false_iff]
      rw [ih hnd']
      by_cases hjv : j = v
      · subst hjv
        simp [he', hv]
      · simp only [List.mem_cons]
        by_cases hin : j ∈ vs
        · simp [hin, hjv]
        · simp [hin, hjv]

theorem relax_q_eq (adj : List (List Nat)) (u : Nat) (vs : List Nat)
    (hnd : vs.Nodup) (inDeg par : List Int) (q : List Nat)
    (hlt : ∀ v ∈ vs, v < inDeg.length) :
    (relax adj u vs inDeg par q).2.2
      = q ++ vs.filter (fun v => edgeB adj u v && decide (inDeg.getD v 0 = 1)) := by
  induction vs generalizing inDeg par q with
  | nil => simp [relax]
  | cons v vs ih =>
    have hnd' : vs.Nodup := hnd.of_cons
    have hv : v ∉ vs := (List.nodup_cons.mp hnd).1
    have hvlen : v < inDeg.length := hlt v (List.mem_cons_self _ _)
    by_cases he : edgeB adj u v = true
    · simp only [relax, he, if_pos]
      have hd2 : (inDeg.set v (inDeg.getD v 0 - 1)).getD v 0 = inDeg.getD v 0 - 1 :=
        getD_set_eq _ _ _ _ hvlen
      have hcong : vs.filter (fun w => edgeB adj u w &&
            decide ((inDeg.set v (inDeg.getD v 0 - 1)).getD w 0 = 1))
          = vs.filter (fun w => edgeB adj u w && decide (inDeg.getD w 0 = 1)) := by
        apply List.filter_congr
        intro w hw
        have hwv : v ≠ w := fun h => hv (h ▸ hw)
        rw [getD_set_ne _ _ _ hwv]
      have hlt2 : ∀ w ∈ vs, w < (inDeg.set v (inDeg.getD v 0 - 1)).length := by
        intro w hw
        rw [List.length_set]
        exact hlt w (List.mem_cons_of_mem _ hw)
      rw [ih hnd' _ _ _ hlt2, hcong]
      by_cases hone : inDeg.getD v 0 = 1
      · have hzero : (inDeg.set v (inDeg.getD v 0 - 1)).getD v 0 = 0 := by
          rw [hd2, hone]
          ring
        rw [if_pos hzero, List.filter_cons, List.append_assoc]
        simp only [he, Bool.true_and, List.singleton_append]
        rw [if_pos (show decide (inDeg.getD v 0 = 1) = true from decide_eq_true hone)]
      · have hnz : ¬ (inDeg.set v (inDeg.getD v 0 - 1)).getD v 0 = 0 := by
          rw [hd2]
          omega
        rw [if_neg hnz, List.filter_cons]
        simp only [he, Bool.true_and]
        rw [if_neg (show ¬ decide (inDeg.getD v 0 = 1) = true from by
          simp only [decide_eq_true_iff]
          exact hone)]
    · have he' : edgeB adj u v = false := by
        cases hb : edgeB adj u v
        · rfl
        · exact absurd hb he
      simp only [relax, he', Bool.false_eq_true, if_neg, not_false_iff]
      rw [ih hnd' _ _ _ (fun w hw => hlt w (List.mem_cons_of_mem _ hw)),
        List.filter_cons]
      simp [he']

/-! ## The invariant holds initially -/

theorem initG_inDeg (adj : List (List Nat)) :
    (initG adj).inDeg = computeInDegrees adj := rfl

theorem initG_par (adj : List (List Nat)) :
    (initG adj).par = List.replicate adj.length (-1 : Int) := rfl

theorem initG_q (adj : List (List Nat)) :
    (initG adj).q = (List.range adj.length).filter
      (fun i => decide ((computeInDegrees adj).getD i 0 = 0)) := rfl

theorem initG_popped (adj : List (List Nat)) : (initG adj).popped = [] := rfl

theorem inv_init (adj : List (List Nat)) : Inv adj (initG adj) := by
  refine ⟨?_, ?_, ?_, ?_, ?_, ?_, ?_, ?_, ?_, ?_, ?_, ?_, ?_, ?_, ?_⟩
  · rw [initG_inDeg]
    exact computeInDegrees_length adj
  · rw [initG_par]
    exact List.length_replicate _ _
  · intro v hv
    rw [initG_popped] at hv
    cases hv
  · intro v hv
    rw [initG_q] at hv
    exact List.mem_range.mp (List.mem_filter.mp hv).1
  · rw [initG_popped]
    exact List.nodup_nil
  · rw [initG_q]
    exact (List.nodup_range _).filter _
  · intro v hv
    rw [initG_popped] at hv
    cases hv
  · intro v hv
    rw [initG_inDeg, initG_popped, computeInDegrees_getD adj v hv, inCount_nil]
    simp
  · intro v hv
    rw [initG_q] at hv
    rw [initG_inDeg]
    exact of_decide_eq_true (List.mem_filter.mp hv).2
  · intro v hv
    rw [initG_inDeg, initG_popped, initG_q]
    constructor
    · intro h
      refine Or.inr (List.mem_filter.mpr ⟨List.mem_range.mpr hv, decide_eq_true h⟩)
    · rintro (h | h)
      · cases h
      · exact of_decide_eq_true (List.mem_filter.mp h).2
  · intro v hv
    rw [initG_popped] at hv
    cases hv
  · rw [initG_popped]
    exact List.Pairwise.nil
  · intro v hv
    rcases hv with h | h
    · rw [initG_popped] at h
      cases h
    · rw [initG_q] at h
      have hvn : v < adj.length := List.mem_range.mp (List.mem_filter.mp h).1
      have hz : (computeInDegrees adj).getD v 0 = 0 :=
        of_decide_eq_true (List.mem_filter.mp h).2
      rw [computeInDegrees_getD adj v hvn] at hz
      have : degIn adj v = 0 := by omega
      exact no_edge_of_degIn_zero adj this v
  · intro v hv
    left
    rw [initG_par, getD_replicate, if_pos hv]
  · intro v hv
    rw [initG_popped] at hv
    cases hv

/-! ## The invariant is preserved by one worklist iteration -/

theorem inv_step (adj : List (List Nat)) (s s2 : GState) (hinv : Inv adj s)
    (hstep : kahnStepG adj s = some s2) : Inv adj s2 := by
  rcases hq : s.q with _ | ⟨u, qrest⟩
  · simp only [kahnStepG, hq] at hstep
    exact Option.noConfusion hstep
  · simp only [kahnStepG, hq] at hstep
    injection hstep with hstep
    subst hstep
    have hu_q : u ∈ s.q := by
      rw [hq]
      exact List.mem_cons_self _ _
    have hun : u < adj.length := hinv.q_lt u hu_q
    have hu_np : u ∉ s.popped := fun h => hinv.disj u h hu_q
    have hu_zero : s.inDeg.getD u 0 = 0 := hinv.q_zero u hu_q
    have hq_nodup : (u :: qrest).Nodup := by
      rw [← hq]
      exact hinv.q_nodup
    have hu_nq : u ∉ qrest := (List.nodup_cons.mp hq_nodup).1
    have hqrest_nodup : qrest.Nodup := (List.nodup_cons.mp hq_nodup).2
    have hq_sub : ∀ v ∈ qrest, v ∈ s.q := by
      intro v hv
      rw [hq]
      exact List.mem_cons_of_mem _ hv
    have hq_all_popped : ∀ v ∈ s.q, ∀ w, edgeB adj w v = true → w ∈ s.popped := by
      intro v hv w hw
      have hvn : v < adj.length := hinv.q_lt v hv
      have h0 : s.inDeg.getD v 0 = 0 := hinv.q_zero v hv
      have hdeq := hinv.deg_eq v hvn
      have hcnt : inCount adj s.popped v = degIn adj v := by omega
      exact all_popped_of_inCount_eq adj hinv.popped_nodup hinv.popped_lt hcnt w hw
    have hqz_noedge : ∀ v ∈ s.q, edgeB adj u v = false := by
      intro v hv
      cases hb : edgeB adj u v
      · rfl
      · exact absurd (hq_all_popped v hv u hb) hu_np
    have hu_self : edgeB adj u u = false := hqz_noedge u hu_q
    have hpop_no_edge : ∀ a ∈ s.popped, edgeB adj u a = false := by
      intro a ha
      cases hb : edgeB adj u a
      · rfl
      · exact absurd (hinv.popped_closed a ha u hb) hu_np
    have hnoedge_ne : ∀ w, edgeB adj u w = false →
        ¬(w < adj.length ∧ edgeB adj u w = true) := by
      intro w hwf hc
      rw [hwf] at hc
      exact Bool.false_ne_true hc.2
    have hRdeg := relax_inDeg_getD adj u (List.range adj.length)
      (List.nodup_range _) s.inDeg s.par qrest
    have hRpar := relax_par_getD adj u (List.range adj.length)
      (List.nodup_range _) s.inDeg s.par qrest
    have hRq := relax_q_eq adj u (List.range adj.length)
      (List.nodup_range _) s.inDeg s.par qrest (by
        intro v hv
        rw [hinv.len_inDeg]
        exact List.mem_range.mp hv)
    have hRlen := relax_lengths adj u (List.range adj.length) s.inDeg s.par qrest
    have hDeg : ∀ j, (relax adj u (List.range adj.length) s.inDeg s.par qrest).1.getD j 0
        = if j < adj.length ∧ edgeB adj u j = true
            then s.inDeg.getD j 0 - 1 else s.inDeg.getD j 0 := by
      intro j
      rw [hRdeg j]
      by_cases h1 : j < adj.length ∧ edgeB adj u j = true
      · rw [if_pos ⟨List.mem_range.mpr h1.1, h1.2, by
          rw [hinv.len_inDeg]
          exact h1.1⟩, if_pos h1]
      · rw [if_neg (fun hc => h1 ⟨List.mem_range.mp hc.1, hc.2.1⟩), if_neg h1]
    have hPar : ∀ j, (relax adj u (List.range adj.length) s.inDeg s.par qrest).2.1.getD j 0
        = if j < adj.length ∧ edgeB adj u j = true
            then Int.ofNat u else s.par.getD j 0 := by
      intro j
      rw [hRpar j]
      by_cases h1 : j < adj.length ∧ edgeB adj u j = true
      · rw [if_pos ⟨List.mem_range.mpr h1.1, h1.2, by
          rw [hinv.len_par]
          exact h1.1⟩, if_pos h1]
      · rw [if_neg (fun hc => h1 ⟨List.mem_range.mp hc.1, hc.2.1⟩), if_neg h1]
    have hnewmem : ∀ v, v ∈ (List.range adj.length).filter
          (fun v => edgeB adj u v && decide (s.inDeg.getD v 0 = 1))
        ↔ (v < adj.length ∧ edgeB adj u v = true ∧ s.inDeg.getD v 0 = 1) := by
      intro v
      rw [List.mem_filter, List.mem_range, Bool.and_eq_true, decide_eq_true_iff]
    have hnew_not_popped : ∀ v, v ∈ (List.range adj.length).filter
          (fun v => edgeB adj u v && decide (s.inDeg.getD v 0 = 1)) → v ∉ s.popped := by
      intro v hv hp
      obtain ⟨hvn, _, h1⟩ := (hnewmem v).mp hv
      have h0 : s.inDeg.getD v 0 = 0 := (hinv.zero_iff v hvn).mpr (Or.inl hp)
      omega
    have hnew_not_q : ∀ v, v ∈ (List.range adj.length).filter
          (fun v => edgeB adj u v && decide (s.inDeg.getD v 0 = 1)) → v ∉ s.q := by
      intro v hv hqq
      obtain ⟨hvn, _, h1⟩ := (hnewmem v).mp hv
      have h0 : s.inDeg.getD v 0 = 0 := hinv.q_zero v hqq
      omega
    have hplt2 : ∀ v ∈ s.popped ++ [u], v < adj.length := by
      intro v hv
      rcases List.mem_append.mp hv with h | h
      · exact hinv.popped_lt v h
      · rw [List.mem_singleton] at h
        subst h
        exact hun
    have hpnd2 : (s.popped ++ [u]).Nodup := by
      rw [List.nodup_append]
      refine ⟨hinv.popped_nodup, List.nodup_singleton u, ?_⟩
      intro a ha hb
      rw [List.mem_singleton] at hb
      subst hb
      exact hu_np ha
    have hInc2 : ∀ v, inCount adj (s.popped ++ [u]) v
        = inCount adj s.popped v + (if edgeB adj u v = true then 1 else 0) := by
      intro v
      rw [inCount_append, inCount_singleton]
    have hdeg2 : ∀ v, v < adj.length →
        (relax adj u (List.range adj.length) s.inDeg s.par qrest).1.getD v 0
          = (degIn adj v : Int) - (inCount adj (s.popped ++ [u]) v : Int) := by
      intro v hv
      rw [hDeg v, hInc2 v]
      have hdeq := hinv.deg_eq v hv
      by_cases he : edgeB adj u v = true
      · rw [if_pos ⟨hv, he⟩, if_pos he]
        push_cast
        omega
      · rw [if_neg (fun hc => he hc.2), if_neg he]
        push_cast
        omega
    have hqz2 : ∀ v, v ∈ qrest ++ (List.range adj.length).filter
          (fun v => edgeB adj u v && decide (s.inDeg.getD v 0 = 1)) →
        (relax adj u (List.range adj.length) s.inDeg s.par qrest).1.getD v 0 = 0 := by
      intro v hv
      rcases List.mem_append.mp hv with h | h
      · have h0 : s.inDeg.getD v 0 = 0 := hinv.q_zero v (hq_sub v h)
        rw [hDeg v, if_neg (hnoedge_ne v (hqz_noedge v (hq_sub v h)))]
        exact h0
      · obtain ⟨hvn, he, h1⟩ := (hnewmem v).mp h
        rw [hDeg v, if_pos ⟨hvn, he⟩, h1]
        omega
    refine ⟨?_, ?_, ?_, ?_, ?_, ?_, ?_, ?_, ?_, ?_, ?_, ?_, ?_, ?_, ?_⟩
    · rw [hRlen.1]
      exact hinv.len_inDeg
    · rw [hRlen.2]
      exact hinv.len_par
    · exact hplt2
    · intro v hv
      rw [hRq] at hv
      rcases List.mem_append.mp hv with h | h
      · exact hinv.q_lt v (hq_sub v h)
      · exact ((hnewmem v).mp h).1
    · exact hpnd2
    · rw [hRq, List.nodup_append]
      refine ⟨hqrest_nodup, (List.nodup_range _).filter _, ?_⟩
      intro a ha hb
      exact hnew_not_q a hb (hq_sub a ha)
    · intro v hv hvq
      rw [hRq] at hvq
      rcases List.mem_append.mp hv with hp | hu2
      · rcases List.mem_append.mp hvq with hr | hnew
        · exact hinv.disj v hp (hq_sub v hr)
        · exact hnew_not_popped v hnew hp
      · rw [List.mem_singleton] at hu2
        subst hu2
        rcases List.mem_append.mp hvq with hr | hnew
        · exact hu_nq hr
        · obtain ⟨_, he, _⟩ := (hnewmem v).mp hnew
          rw [hu_self] at he
          exact Bool.false_ne_true he
    · intro v hv
      exact hdeg2 v hv
    · intro v hv
      rw [hRq] at hv
      exact hqz2 v hv
    · intro v hv
      constructor
      · intro h0
        by_cases he : edgeB adj u v = true
        · have h1 : s.inDeg.getD v 0 = 1 := by
            rw [hDeg v, if_pos ⟨hv, he⟩] at h0
            omega
          right
          rw [hRq]
          exact List.mem_append.mpr (Or.inr ((hnewmem v).mpr ⟨hv, he, h1⟩))
        · have hold : s.inDeg.getD v 0 = 0 := by
            rw [hDeg v, if_neg (fun hc => he hc.2)] at h0
            exact h0
          rcases (hinv.zero_iff v hv).mp hold with hp | hqq
          · left
            exact List.mem_append.mpr (Or.inl hp)
          · rw [hq] at hqq
            rcases List.mem_cons.mp hqq with hvu | hr
            · left
              subst hvu
              exact List.mem_append.mpr (Or.inr (List.mem_singleton.mpr rfl))
            · right
              rw [hRq]
              exact List.mem_append.mpr (Or.inl hr)
      · intro h
        rcases h with h | h
        · rcases List.mem_append.mp h with hp | hu2
          · have h0 := (hinv.zero_iff v hv).mpr (Or.inl hp)
            rw [hDeg v, if_neg (hnoedge_ne v (hpop_no_edge v hp))]
            exact h0
          · rw [List.mem_singleton] at hu2
            subst hu2
            rw [hDeg v, if_neg (hnoedge_ne v hu_self)]
            exact hu_zero
        · rw [hRq] at h
          exact hqz2 v h
    · intro v hv w hw
      rcases List.mem_append.mp hv with hp | hu2
      · exact List.mem_append.mpr (Or.inl (hinv.popped_closed v hp w hw))
      · rw [List.mem_singleton] at hu2
        subst hu2
        exact List.mem_append.mpr (Or.inl (hq_all_popped v hu_q w hw))
    · rw [List.pairwise_append]
      refine ⟨hinv.popped_pairwise, List.pairwise_singleton _ _, ?_⟩
      intro a ha b hb
      rw [List.mem_singleton] at hb
      subst hb
      exact hpop_no_edge a ha
    · intro v hv
      rcases hv with h | h
      · rcases List.mem_append.mp h with hp | hu2
        · exact hinv.no_self v (Or.inl hp)
        · rw [List.mem_singleton] at hu2
          subst hu2
          exact hu_self
      · rw [hRq] at h
        rcases List.mem_append.mp h with hr | hnew
        · exact hinv.no_self v (Or.inr (hq_sub v hr))
        · obtain ⟨hvn, he, h1⟩ := (hnewmem v).mp hnew
          cases hb : edgeB adj v v
          · rfl
          · have h0 := hqz2 v (List.mem_append.mpr (Or.inr hnew))
            have hdeq2 := hdeg2 v hvn
            have hcnt : inCount adj (s.popped ++ [u]) v = degIn adj v := by omega
            have hv_in := all_popped_of_inCount_eq adj hpnd2 hplt2 hcnt v hb
            rcases List.mem_append.mp hv_in with hp | hu2
            · exact absurd hp (hnew_not_popped v hnew)
            · rw [List.mem_singleton] at hu2
              subst hu2
              rw [hu_self] at he
              exact absurd he (Bool.false_ne_true)
    · intro v hv
      by_cases he : edgeB adj u v = true
      · right
        refine ⟨u, ?_, List.mem_append.mpr (Or.inr (List.mem_singleton.mpr rfl)), he⟩
        rw [hPar v, if_pos ⟨hv, he⟩]
      · rcases hinv.par_val v hv with hneg | ⟨w, heq, hwp, hwe⟩
        · left
          rw [hPar v, if_neg (fun hc => he hc.2)]
          exact hneg
        · right
          refine ⟨w, ?_, List.mem_append.mpr (Or.inl hwp), hwe⟩
          rw [hPar v, if_neg (fun hc => he hc.2)]
          exact heq
    · intro v hv w hw
      rcases List.mem_append.mp hv with hp | hu2
      · have hvn := hinv.popped_lt v hp
        have he : edgeB adj u v = false := hpop_no_edge v hp
        rw [hPar v, if_neg (hnoedge_ne v he)] at hw
        rcases hinv.par_val v hvn with hneg | ⟨w2, heq, hw2p, _⟩
        · exact absurd (show ((w : Nat) : Int) = -1 from hw.symm.trans hneg) (by omega)
        · have hww : w2 = w := Int.ofNat.inj (heq.symm.trans hw)
          subst hww
          have hord := hinv.par_ord v hp w2 heq
          show List.indexOf w2 (s.popped ++ [u]) < List.indexOf v (s.popped ++ [u])
          rw [List.indexOf_append_of_mem hw2p, List.indexOf_append_of_mem hp]
          exact hord
      · rw [List.mem_singleton] at hu2
        subst hu2
        rw [hPar v, if_neg (hnoedge_ne v hu_self)] at hw
        rcases hinv.par_val v hun with hneg | ⟨w2, heq, hw2p, _⟩
        · exact absurd (show ((w : Nat) : Int) = -1 from hw.symm.trans hneg) (by omega)
        · have hww : w2 = w := Int.ofNat.inj (heq.symm.trans hw)
          subst hww
          show List.indexOf w2 (s.popped ++ [v]) < List.indexOf v (s.popped ++ [v])
          rw [List.indexOf_append_of_mem hw2p, List.indexOf_append_of_not_mem hu_np]
          have h1 : s.popped.indexOf w2 < s.popped.length :=
            List.indexOf_lt_length.mpr hw2p
          have h2 : [v].indexOf v = 0 := List.indexOf_cons_self v []
          omega

/-! ## Running the loop: invariant preservation, fuel bound, simulation -/

theorem inv_run (adj : List (List Nat)) (fuel : Nat) (s : GState) (hinv : Inv adj s) :
    Inv adj (kahnRunG adj fuel s) := by
  induction fuel generalizing s with
  | zero => exact hinv
  | succ fuel ih =>
    cases hstep : kahnStepG adj s with
    | none => simpa [kahnRunG, hstep] using hinv
    | some s2 =>
      simp only [kahnRunG, hstep]
      exact ih s2 (inv_step adj s s2 hinv hstep)

theorem kahnStepG_none_iff (adj : List (List Nat)) (s : GState) :
    kahnStepG adj s = none ↔ s.q = [] := by
  rcases hq : s.q with _ | ⟨u, t⟩ <;> simp [kahnStepG, hq]

theorem kahnStepG_popped_length (adj : List (List Nat)) (s s2 : GState)
    (h : kahnStepG adj s = some s2) : s2.popped.length = s.popped.length + 1 := by
  rcases hq : s.q with _ | ⟨u, t⟩
  · simp [kahnStepG, hq] at h
  · simp only [kahnStepG, hq] at h
    injection h with h
    rw [← h]
    exact List.length_append _ _ ▸ rfl

theorem runG_popped_growth (adj : List (List Nat)) (fuel : Nat) (s : GState) :
    (kahnRunG adj fuel s).q = [] ∨
      (kahnRunG adj fuel s).popped.length = s.popped.length + fuel := by
  induction fuel generalizing s with
  | zero => right; rfl
  | succ fuel ih =>
    cases hstep : kahnStepG adj s with
    | none =>
      left
      simp only [kahnRunG, hstep]
      exact (kahnStepG_none_iff adj s).mp hstep
    | some s2 =>
      simp only [kahnRunG, hstep]
      rcases ih s2 with h | h
      · left
        exact h
      · right
        rw [h, kahnStepG_popped_length adj s s2 hstep]
        omega

theorem inv_finalG (adj : List (List Nat)) : Inv adj (finalG adj) :=
  inv_run adj adj.length (initG adj) (inv_init adj)

theorem finalG_q_nil (adj : List (List Nat)) : (finalG adj).q = [] := by
  rcases runG_popped_growth adj adj.length (initG adj) with h | h
  · exact h
  · by_contra hne
    have hinv := inv_finalG adj
    rcases hq : (finalG adj).q with _ | ⟨u, t⟩
    · exact hne hq
    · have hu : u ∈ (finalG adj).q := by
        rw [hq]
        exact List.mem_cons_self _ _
      have hun := hinv.q_lt u hu
      have hup : u ∉ (finalG adj).popped := fun hp => hinv.disj u hp hu
      have hlenp : (finalG adj).popped.length = adj.length := by
        rw [show (finalG adj).popped.length
            = (initG adj).popped.length + adj.length from h, initG_popped]
        simp
      have hall := mem_of_nodup_subset_length_le hinv.popped_nodup
        (List.nodup_range adj.length)
        (fun x hx => List.mem_range.mpr (hinv.popped_lt x hx))
        (by rw [List.length_range, hlenp])
      exact hup (hall u (List.mem_range.mpr hun))

theorem kahnRun_sim (adj : List (List Nat)) (fuel : Nat) (g : GState) :
    kahnRun adj fuel ⟨g.inDeg, g.par, g.q, g.popped.length⟩
      = ⟨(kahnRunG adj fuel g).inDeg, (kahnRunG adj fuel g).par,
          (kahnRunG adj fuel g).q, (kahnRunG adj fuel g).popped.length⟩ := by
  induction fuel generalizing g with
  | zero => rfl
  | succ fuel ih =>
    rcases hq : g.q with _ | ⟨u, t⟩
    · have h1 : kahnStep adj ⟨g.inDeg, g.par, [], g.popped.length⟩ = none := by
        simp [kahnStep]
      have h2 : kahnStepG adj g = none := by
        simp [kahnStepG, hq]
      rw [kahnRun, kahnRunG, h1, h2]
      simp [hq]
    · have h1 : kahnStep adj ⟨g.inDeg, g.par, u :: t, g.popped.length⟩
          = some ⟨(relax adj u (List.range adj.length) g.inDeg g.par t).1,
              (relax adj u (List.range adj.length) g.inDeg g.par t).2.1,
              (relax adj u (List.range adj.length) g.inDeg g.par t).2.2,
              g.popped.length + 1⟩ := by
        simp [kahnStep]
      have h2 : kahnStepG adj g
          = some ⟨(relax adj u (List.range adj.length) g.inDeg g.par t).1,
              (relax adj u (List.range adj.length) g.inDeg g.par t).2.1,
              (relax adj u (List.range adj.length) g.inDeg g.par t).2.2,
              g.popped ++ [u]⟩ := by
        simp [kahnStepG, hq]
      rw [kahnRun, kahnRunG, h1, h2]
      have hrec := ih ⟨(relax adj u (List.range adj.length) g.inDeg g.par t).1,
        (relax adj u (List.range adj.length) g.inDeg g.par t).2.1,
        (relax adj u (List.range adj.length) g.inDeg g.par t).2.2,
        g.popped ++ [u]⟩
      simpa [List.length_append] using hrec

/-! ## The backward parent walk -/

theorem traceWalk_ne_found (par : List Int) (mu : Nat → Nat)
    (hpar : ∀ c : Nat, c < par.length → ∀ w : Nat, par.getD c 0 = Int.ofNat w →
      w < par.length ∧ mu w < mu c) :
    ∀ (fuel : Nat) (visited : List Bool) (current : Int),
      visited.length = par.length →
      (∀ c : Nat, current = Int.ofNat c → c < par.length →
        ∀ v : Nat, v < par.length → visited.getD v false = true → mu c < mu v) →
      ∀ z, traceWalk par fuel visited current ≠ .found z := by
  intro fuel
  induction fuel with
  | zero =>
    intro visited current hlen hind z
    simp [traceWalk]
  | succ fuel ih =>
    intro visited current hlen hind z
    simp only [traceWalk]
    by_cases hcur : 0 ≤ current ∧ current < (visited.length : Int)
    · rw [if_pos hcur]
      have hc0 : current = Int.ofNat current.toNat := (Int.toNat_of_nonneg hcur.1).symm
      have hclt : current.toNat < par.length := by
        have h2 := hcur.2
        rw [hlen] at h2
        omega
      by_cases hvis : visited.getD current.toNat false = true
      · rw [if_pos hvis]
        exact absurd (hind current.toNat hc0 hclt current.toNat hclt hvis) (lt_irrefl _)
      · rw [if_neg hvis]
        apply ih
        · rw [List.length_set]
          exact hlen
        · intro c hc hcp v hv hvisv
          obtain ⟨hwlt, hdec⟩ := hpar current.toNat hclt c hc
          by_cases hveq : v = current.toNat
          · subst hveq
            exact hdec
          · have hold : visited.getD v false = true := by
              rw [getD_set_ne _ _ _ (fun hh => hveq hh.symm)] at hvisv
              exact hvisv
            exact lt_trans hdec (hind current.toNat hc0 hclt v hv hold)
    · rw [if_neg hcur]
      intro hh
      cases hh

theorem traceWalk_ne_fuelOut (par : List Int) :
    ∀ (fuel : Nat) (visited : List Bool) (current : Int),
      visited.count false < fuel →
      traceWalk par fuel visited current ≠ .fuelOut := by
  intro fuel
  induction fuel with
  | zero =>
    intro visited current h
    omega
  | succ fuel ih =>
    intro visited current h
    simp only [traceWalk]
    by_cases hcur : 0 ≤ current ∧ current < (visited.length : Int)
    · rw [if_pos hcur]
      by_cases hvis : visited.getD current.toNat false = true
      · rw [if_pos hvis]
        intro hh
        cases hh
      · rw [if_neg hvis]
        apply ih
        have hclt : current.toNat < visited.length := by omega
        have hfalse : visited.getD current.toNat false = false := by
          cases hb : visited.getD current.toNat false
          · rfl
          · exact absurd hb hvis
        have := count_false_set hclt hfalse
        omega
    · rw [if_neg hcur]
      intro hh
      cases hh

/-! ## Kahn correctness, direction A: all vertices processed implies no cycle -/

theorem getLastD_default_irrel {alpha : Type} (l : List alpha) (a x y : alpha) :
    (a :: l).getLastD x = (a :: l).getLastD y := by
  induction l generalizing a with
  | nil => rfl
  | cons b l ih =>
    rw [List.getLastD_cons x a (b :: l), List.getLastD_cons y a (b :: l)]

theorem getLastD_cons_mem {alpha : Type} (l : List alpha) (a d : alpha) :
    (a :: l).getLastD d ∈ a :: l := by
  induction l generalizing a with
  | nil => simp [List.getLastD]
  | cons b l ih =>
    rw [List.getLastD_cons d a (b :: l)]
    exact List.mem_cons_of_mem a (ih b)

theorem idx_lt_of_edge (adj : List (List Nat)) (s : GState) (hinv : Inv adj s)
    {u v : Nat} (hu : u ∈ s.popped) (hv : v ∈ s.popped) (he : edgeB adj u v = true) :
    s.popped.indexOf u < s.popped.indexOf v := by
  have hne : u ≠ v := by
    intro h
    subst h
    rw [hinv.no_self u (Or.inl hu)] at he
    exact Bool.false_ne_true he
  have hiu : s.popped.indexOf u < s.popped.length := List.indexOf_lt_length.mpr hu
  have hiv : s.popped.indexOf v < s.popped.length := List.indexOf_lt_length.mpr hv
  rcases lt_trichotomy (s.popped.indexOf u) (s.popped.indexOf v) with h | h | h
  · exact h
  · exact absurd ((List.indexOf_inj hu hv).mp h) hne
  · exfalso
    have hpw := List.pairwise_iff_getElem.mp hinv.popped_pairwise
      (s.popped.indexOf v) (s.popped.indexOf u) hiv hiu h
    rw [List.getElem_indexOf hiu, List.getElem_indexOf hiv] at hpw
    rw [hpw] at he
    exact Bool.false_ne_true he

theorem chain_idx_le (adj : List (List Nat)) (s : GState) (hinv : Inv adj s) :
    ∀ (c : List Nat) (v0 : Nat), (∀ v ∈ v0 :: c, v ∈ s.popped) →
      List.Chain' (fun a b => edgeB adj a b = true) (v0 :: c) →
      s.popped.indexOf v0 ≤ s.popped.indexOf ((v0 :: c).getLastD 0) := by
  intro c
  induction c with
  | nil =>
    intro v0 hmem hch
    simp [List.getLastD]
  | cons v1 c ih =>
    intro v0 hmem hch
    rw [List.chain'_cons] at hch
    have h01 : s.popped.indexOf v0 < s.popped.indexOf v1 :=
      idx_lt_of_edge adj s hinv (hmem v0 (List.mem_cons_self _ _))
        (hmem v1 (List.mem_cons_of_mem _ (List.mem_cons_self _ _))) hch.1
    have hrest := ih v1 (fun v hv => hmem v (List.mem_cons_of_mem _ hv)) hch.2
    have hlast : (v0 :: v1 :: c).getLastD 0 = (v1 :: c).getLastD 0 := by
      rw [List.getLastD_cons 0 v0 (v1 :: c)]
      exact getLastD_default_irrel c v1 v0 0
    rw [hlast]
    omega

theorem no_cycle_of_all_popped (adj : List (List Nat))
    (h : (finalG adj).popped.length = adj.length) : ¬ HasCycle adj := by
  rintro ⟨c, hne, hlt, hch, hwrap⟩
  have hinv := inv_finalG adj
  have hall : ∀ v, v < adj.length → v ∈ (finalG adj).popped := by
    intro v hv
    exact mem_of_nodup_subset_length_le hinv.popped_nodup (List.nodup_range _)
      (fun x hx => List.mem_range.mpr (hinv.popped_lt x hx))
      (by rw [List.length_range, h]) v (List.mem_range.mpr hv)
  rcases c with _ | ⟨v0, rest⟩
  · exact hne rfl
  · have hmem : ∀ v ∈ v0 :: rest, v ∈ (finalG adj).popped :=
      fun v hv => hall v (hlt v hv)
    have hwrap2 : edgeB adj ((v0 :: rest).getLastD 0) v0 = true := hwrap
    have h1 := chain_idx_le adj (finalG adj) hinv rest v0 hmem hch
    have h2 := idx_lt_of_edge adj (finalG adj) hinv
      (hmem _ (getLastD_cons_mem rest v0 0)) (hmem v0 (List.mem_cons_self _ _)) hwrap2
    omega

/-! ## Kahn correctness, direction B: an unprocessed vertex implies a cycle -/

theorem headD_map_range (f : Nat → Nat) (k : Nat) (hk : 0 < k) :
    ((List.range k).map f).headD 0 = f 0 := by
  rcases k with _ | k
  · omega
  · rw [List.range_succ_eq_map]
    rfl

theorem getLastD_map_range (f : Nat → Nat) (k : Nat) (hk : 0 < k) :
    ((List.range k).map f).getLastD 0 = f (k - 1) := by
  rcases k with _ | k
  · omega
  · rw [show List.range (k + 1) = List.range k ++ [k] from List.range_succ k,
      List.map_append]
    simp [List.getLastD_concat]

theorem hasCycle_of_unpopped (adj : List (List Nat))
    (h : (finalG adj).popped.length < adj.length) : HasCycle adj := by
  classical
  have hinv := inv_finalG adj
  have hqnil := finalG_q_nil adj
  have hpred : ∀ v, v < adj.length → v ∉ (finalG adj).popped →
      ∃ u, (u < adj.length ∧ u ∉ (finalG adj).popped) ∧ edgeB adj u v = true := by
    intro v hv hnp
    by_contra hno
    push_neg at hno
    have hall : ∀ u, edgeB adj u v = true → u ∈ (finalG adj).popped := by
      intro u hu
      by_contra hup
      exact (hno u ⟨edgeB_source_lt hu, hup⟩) hu
    have hge : degIn adj v ≤ inCount adj (finalG adj).popped v := by
      apply nodup_length_subset_le ((List.nodup_range _).filter _)
        (hinv.popped_nodup.filter _)
      intro x hx
      rw [List.mem_filter] at hx ⊢
      exact ⟨hall x hx.2, hx.2⟩
    have hle := inCount_le_degIn adj v hinv.popped_nodup hinv.popped_lt
    have hdeq := hinv.deg_eq v hv
    have h0 : (finalG adj).inDeg.getD v 0 = 0 := by omega
    rcases (hinv.zero_iff v hv).mp h0 with hp | hq2
    · exact hnp hp
    · rw [hqnil] at hq2
      cases hq2
  have hstart : ∃ v0, v0 < adj.length ∧ v0 ∉ (finalG adj).popped := by
    by_contra hno
    push_neg at hno
    have hsub : ∀ x ∈ List.range adj.length, x ∈ (finalG adj).popped :=
      fun x hx => hno x (List.mem_range.mp hx)
    have := nodup_length_subset_le (List.nodup_range _) hinv.popped_nodup hsub
    rw [List.length_range] at this
    omega
  obtain ⟨v0, hv0⟩ := hstart
  let step : {v : Nat // v < adj.length ∧ v ∉ (finalG adj).popped} →
      {v : Nat // v < adj.length ∧ v ∉ (finalG adj).popped} :=
    fun p => ⟨(hpred p.1 p.2.1 p.2.2).choose, (hpred p.1 p.2.1 p.2.2).choose_spec.1⟩
  let w : Nat → {v : Nat // v < adj.length ∧ v ∉ (finalG adj).popped} :=
    fun k => step^[k] ⟨v0, hv0⟩
  have hedge : ∀ k, edgeB adj (w (k + 1)).1 (w k).1 = true := by
    intro k
    have hsucc : w (k + 1) = step (w k) := Function.iterate_succ_apply' step k _
    rw [hsucc]
    exact (hpred (w k).1 (w k).2.1 (w k).2.2).choose_spec.2
  have hpigeon : ∃ i j : Nat, i < j ∧ (w i).1 = (w j).1 := by
    have hcard : Fintype.card (Fin adj.length) < Fintype.card (Fin (adj.length + 1)) := by
      simp
    obtain ⟨x, y, hxy, hfxy⟩ := Fintype.exists_ne_map_eq_of_card_lt
      (fun a : Fin (adj.length + 1) => (⟨(w a.1).1, (w a.1).2.1⟩ : Fin adj.length)) hcard
    have hval : (w x.1).1 = (w y.1).1 := by
      have := congrArg Fin.val hfxy
      simpa using this
    rcases Nat.lt_or_ge x.1 y.1 with hlt | hge
    · exact ⟨x.1, y.1, hlt, hval⟩
    · have hneq : x.1 ≠ y.1 := fun hh => hxy (Fin.ext hh)
      have : y.1 < x.1 := by omega
      exact ⟨y.1, x.1, this, hval.symm⟩
  obtain ⟨i, j, hij, hw⟩ := hpigeon
  refine ⟨(List.range (j - i)).map (fun m => (w (j - m)).1), ?_, ?_, ?_, ?_⟩
  · apply List.ne_nil_of_length_pos
    rw [List.length_map, List.length_range]
    omega
  · intro v hv
    rw [List.mem_map] at hv
    obtain ⟨m, hm, rfl⟩ := hv
    exact (w (j - m)).2.1
  · rw [List.chain'_map]
    have hk : j - i = (j - i - 1) + 1 := by omega
    rw [hk, List.chain'_range_succ]
    intro m hm
    have hmm : j - m = (j - (m + 1)) + 1 := by omega
    rw [hmm]
    exact hedge (j - (m + 1))
  · rw [headD_map_range _ _ (by omega), getLastD_map_range _ _ (by omega)]
    have h1 : j - 0 = j := by omega
    have h2 : j - (j - i - 1) = i + 1 := by omega
    rw [h1, h2]
    have h3 : (w j).1 = (w i).1 := hw.symm
    rw [h3]
    exact hedge i

/-! ## The reconstruction walk at the final state always goes out of bounds -/

theorem final_par_step (adj : List (List Nat)) :
    ∀ c : Nat, c < (finalG adj).par.length → ∀ w : Nat,
      (finalG adj).par.getD c 0 = Int.ofNat w →
      w < (finalG adj).par.length ∧
        (finalG adj).popped.indexOf w < (finalG adj).popped.indexOf c := by
  intro c hc w hw
  have hinv := inv_finalG adj
  rw [hinv.len_par] at hc
  rcases hinv.par_val c hc with hneg | ⟨w2, heq, hw2p, _⟩
  · exact absurd (show ((w : Nat) : Int) = -1 from hw.symm.trans hneg) (by omega)
  · have hww : w2 = w := Int.ofNat.inj (heq.symm.trans hw)
    subst hww
    refine ⟨?_, ?_⟩
    · rw [hinv.len_par]
      exact hinv.popped_lt w2 hw2p
    · by_cases hcp : c ∈ (finalG adj).popped
      · exact hinv.par_ord c hcp w2 heq
      · have h1 : (finalG adj).popped.indexOf w2 < (finalG adj).popped.length :=
          List.indexOf_lt_length.mpr hw2p
        have h2 : (finalG adj).popped.indexOf c = (finalG adj).popped.length :=
          List.indexOf_eq_length.mpr hcp
        omega

theorem walk_from_final_oob (adj : List (List Nat)) (current : Int) :
    traceWalk (finalG adj).par (adj.length + 1)
      (List.replicate adj.length false) current = .oob := by
  have hinv := inv_finalG adj
  cases hw : traceWalk (finalG adj).par (adj.length + 1)
      (List.replicate adj.length false) current with
  | oob => rfl
  | found z =>
    exact absurd hw (traceWalk_ne_found (finalG adj).par
      (fun v => (finalG adj).popped.indexOf v) (final_par_step adj)
      (adj.length + 1) (List.replicate adj.length false) current
      (by rw [List.length_replicate, hinv.len_par])
      (by
        intro c hc hcp v hv hvis
        rw [getD_replicate] at hvis
        by_cases hvn : v < adj.length
        · rw [if_pos hvn] at hvis
          exact absurd hvis (by simp)
        · rw [if_neg hvn] at hvis
          exact absurd hvis (by simp))
      z)
  | fuelOut =>
    exact absurd hw (traceWalk_ne_fuelOut (finalG adj).par (adj.length + 1)
      (List.replicate adj.length false) current
      (by
        have hcnt : (List.replicate adj.length false).count false = adj.length := by
          simp [List.count_replicate]
        omega))

/-! ## Unfolding `detectCycleBFS` through the invariant -/

theorem initState_eq_proj (adj : List (List Nat)) :
    initState adj = ⟨(initG adj).inDeg, (initG adj).par, (initG adj).q,
      (initG adj).popped.length⟩ := rfl

theorem kahn_final_plain (adj : List (List Nat)) :
    kahnRun adj adj.length (initState adj)
      = ⟨(finalG adj).inDeg, (finalG adj).par, (finalG adj).q,
          (finalG adj).popped.length⟩ := by
  rw [initState_eq_proj]
  exact kahnRun_sim adj adj.length (initG adj)

theorem detect_graphEmpty (adj : List (List Nat)) (h : adj.length = 0) :
    detectCycleBFS adj = .graphEmpty := by
  simp [detectCycleBFS, h]

theorem detect_acyclic_of_all (adj : List (List Nat)) (hn : adj.length ≠ 0)
    (h : (finalG adj).popped.length = adj.length) :
    detectCycleBFS adj = .acyclic := by
  simp only [detectCycleBFS, kahn_final_plain adj]
  rw [if_neg hn, if_neg (show ¬ (finalG adj).popped.length < adj.length by omega)]

theorem detect_cyclic_oob (adj : List (List Nat)) (hn : adj.length ≠ 0)
    (h : (finalG adj).popped.length < adj.length) :
    detectCycleBFS adj = .cyclic .oobAccess := by
  simp only [detectCycleBFS, kahn_final_plain adj]
  rw [if_neg hn, if_pos h, walk_from_final_oob adj]

theorem processed_lt_iff_hasCycle (adj : List (List Nat)) :
    (finalG adj).popped.length < adj.length ↔ HasCycle adj := by
  constructor
  · exact hasCycle_of_unpopped adj
  · intro hc
    by_contra hnot
    have hle : (finalG adj).popped.length ≤ adj.length :=
      nodup_lt_length_le (inv_finalG adj).popped_nodup (inv_finalG adj).popped_lt
    have heq : (finalG adj).popped.length = adj.length := by omega
    exact no_cycle_of_all_popped adj heq hc

/-! ## Claim theorems -/

/-- C1: for every well-formed graph, `detectCycleBFS` classifies the graph
as Cyclic (i.e. prints the CYCLIC result, reaching the reconstruction
phase) if and only if the graph actually contains a directed cycle: the
`processedCount < numVertices` test agrees with ground truth. -/
theorem claim1_detect_cyclic_iff_hasCycle (adj : List (List Nat))
    (hwf : wellFormed adj) :
    (∃ r, detectCycleBFS adj = DetectResult.cyclic r) ↔ HasCycle adj := by
  by_cases hn : adj.length = 0
  · constructor
    · rintro ⟨r, hr⟩
      rw [detect_graphEmpty adj hn] at hr
      cases hr
    · rintro ⟨c, hne, hlt, _, _⟩
      rcases c with _ | ⟨v, c⟩
      · exact absurd rfl hne
      · have := hlt v (List.mem_cons_self _ _)
        omega
  · by_cases hcyc : (finalG adj).popped.length < adj.length
    · constructor
      · intro _
        exact (processed_lt_iff_hasCycle adj).mp hcyc
      · intro _
        exact ⟨CycleReport.oobAccess, detect_cyclic_oob adj hn hcyc⟩
    · have hle : (finalG adj).popped.length ≤ adj.length :=
        nodup_lt_length_le (inv_finalG adj).popped_nodup (inv_finalG adj).popped_lt
      have heq : (finalG adj).popped.length = adj.length := by omega
      constructor
      · rintro ⟨r, hr⟩
        rw [detect_acyclic_of_all adj hn heq] at hr
        cases hr
      · intro hc
        exact absurd hc (no_cycle_of_all_popped adj heq)

/-- Witness for C1 at the self-loop graph `[[1]]`, which has a cycle. -/
theorem claim1_witness :
    wellFormed [[1]] ∧ (∃ r, detectCycleBFS [[1]] = DetectResult.cyclic r) :=
  ⟨by decide, (claim1_detect_cyclic_iff_hasCycle [[1]] (by decide)).mpr
    ⟨[0], by decide, by decide, List.chain'_singleton 0, by decide⟩⟩

/-- C2 (refuted, code bug): the claim asserts every Cyclic classification
comes with a valid witness sequence; in fact the reconstruction never
produces any witness path on any well-formed input, because the backward
parent walk always dereferences the `-1` sentinel out of bounds first. -/
theorem claim2_no_witness_ever (adj : List (List Nat)) (hwf : wellFormed adj) :
    ∀ p, detectCycleBFS adj ≠ DetectResult.cyclic (CycleReport.witness p) := by
  intro p hcon
  by_cases hn : adj.length = 0
  · rw [detect_graphEmpty adj hn] at hcon
    cases hcon
  · by_cases hc : (finalG adj).popped.length < adj.length
    · rw [detect_cyclic_oob adj hn hc] at hcon
      simp at hcon
    · have hle : (finalG adj).popped.length ≤ adj.length :=
        nodup_lt_length_le (inv_finalG adj).popped_nodup (inv_finalG adj).popped_lt
      rw [detect_acyclic_of_all adj hn (by omega)] at hcon
      cases hcon

/-- Witness for C2 at the repository's own Test Case 1 graph. -/
theorem claim2_witness :
    wellFormed [[0,1,0,0],[0,0,1,1],[0,0,0,0],[0,1,0,0]] ∧
      ∀ p, detectCycleBFS [[0,1,0,0],[0,0,1,1],[0,0,0,0],[0,1,0,0]]
        ≠ DetectResult.cyclic (CycleReport.witness p) :=
  ⟨by decide, claim2_no_witness_ever [[0,1,0,0],[0,0,1,1],[0,0,0,0],[0,1,0,0]] (by decide)⟩

/-- C3 (refuted, code bug): the claim asserts the backward walk stays in
bounds and reaches an already-seen vertex; in fact on every well-formed
cyclic graph the walk reaches the `-1` parent sentinel and indexes the
visited array out of bounds. -/
theorem claim3_walk_always_oob (adj : List (List Nat)) (hwf : wellFormed adj)
    (hc : HasCycle adj) :
    detectCycleBFS adj = DetectResult.cyclic CycleReport.oobAccess := by
  have hn : adj.length ≠ 0 := by
    rcases hc with ⟨c, hne, hlt, _, _⟩
    rcases c with _ | ⟨v, c⟩
    · exact absurd rfl hne
    · have := hlt v (List.mem_cons_self _ _)
      omega
  exact detect_cyclic_oob adj hn ((processed_lt_iff_hasCycle adj).mpr hc)

/-- Witness for C3 at the self-loop graph `[[1]]`. -/
theorem claim3_witness :
    wellFormed [[1]] ∧
      detectCycleBFS [[1]] = DetectResult.cyclic CycleReport.oobAccess :=
  ⟨by decide, claim3_walk_always_oob [[1]] (by decide)
    ⟨[0], by decide, by decide, List.chain'_singleton 0, by decide⟩⟩

/-- C4: the worklist loop reaches the empty queue within `adj.length`
iterations, and no loop of the detector ever exhausts its fuel bound
(`fuelOut` is unreachable), so detection terminates in bounded steps. -/
theorem claim4_terminates (adj : List (List Nat)) (hwf : wellFormed adj) :
    (kahnRun adj adj.length (initState adj)).q = [] ∧
      detectCycleBFS adj ≠ DetectResult.cyclic CycleReport.fuelOut := by
  constructor
  · rw [kahn_final_plain adj]
    exact finalG_q_nil adj
  · intro hcon
    by_cases hn : adj.length = 0
    · rw [detect_graphEmpty adj hn] at hcon
      cases hcon
    · by_cases hc : (finalG adj).popped.length < adj.length
      · rw [detect_cyclic_oob adj hn hc] at hcon
        simp at hcon
      · have hle : (finalG adj).popped.length ≤ adj.length :=
          nodup_lt_length_le (inv_finalG adj).popped_nodup (inv_finalG adj).popped_lt
        rw [detect_acyclic_of_all adj hn (by omega)] at hcon
        cases hcon

/-- Witness for C4 at the self-loop graph `[[1]]`. -/
theorem claim4_witness :
    wellFormed [[1]] ∧
      ((kahnRun [[1]] 1 (initState [[1]])).q = [] ∧
        detectCycleBFS [[1]] ≠ DetectResult.cyclic CycleReport.fuelOut) := by
  refine ⟨by decide, ?_⟩
  have h := claim4_terminates [[1]] (by decide)
  exact h

/-- C5 (refuted, code bug): the single vertex with no edges is classified
Acyclic as claimed; but for the single-vertex self-loop, instead of the
claimed witness `[v0]`, the reconstruction dereferences `parent[0] = -1`
out of bounds (vertex 0 is never processed, so its parent is never set). -/
theorem claim5_single_vertex :
    detectCycleBFS [[0]] = DetectResult.acyclic ∧
      detectCycleBFS [[1]] = DetectResult.cyclic CycleReport.oobAccess := by
  exact ⟨by decide, by decide⟩

/-- C6 (refuted, code bug): for the demo graph `{0→1, 1→2, 1→3, 3→1}` the
classification is Cyclic, but no witness covering `{1, 3}` is produced:
tracing back from vertex 1 gives `parent[1] = 0` (last writer during
processing) and then `parent[0] = -1`, an out-of-bounds read. -/
theorem claim6_demo_graph :
    detectCycleBFS [[0,1,0,0],[0,0,1,1],[0,0,0,0],[0,1,0,0]]
      = DetectResult.cyclic CycleReport.oobAccess := by decide

/-- C7 counterexample: the empty graph is answered with the distinct
`graphEmpty` report (the source prints `Graph is empty.` and returns),
not with the Acyclic classification. -/
theorem claim7_counterexample :
    detectCycleBFS [] = DetectResult.graphEmpty ∧
      detectCycleBFS [] ≠ DetectResult.acyclic := by decide

/-- C7 (amended): for the empty graph the detector returns its separate
empty-graph report, and in particular never classifies it as Cyclic. -/
theorem claim7_empty_not_cyclic :
    detectCycleBFS [] = DetectResult.graphEmpty ∧
      ∀ r, detectCycleBFS [] ≠ DetectResult.cyclic r :=
  ⟨by decide, fun r hcon => by
    rw [detect_graphEmpty [] rfl] at hcon
    cases hcon⟩

/-- C8 counterexample: the malformed matrix `[[2]]` (entry outside {0,1})
is not rejected; detection proceeds and produces the Acyclic answer. -/
theorem claim8_counterexample :
    detectCycleBFS [[2]] = DetectResult.acyclic := by decide

/-- C8 (amended): `detectCycleBFS` performs no input validation; matrices
with entries outside {0,1} are processed normally, every entry other than
`1` acting as the absence of an edge, and an ordinary answer is produced. -/
theorem claim8_no_validation :
    detectCycleBFS [[2]] = DetectResult.acyclic ∧
      detectCycleBFS [[0,2],[2,0]] = DetectResult.acyclic ∧
      detectCycleBFS [[2,1],[1,2]] = DetectResult.cyclic CycleReport.oobAccess := by
  exact ⟨by decide, by decide, by decide⟩

/-- C9: at every point during the worklist loop (after `k` iterations, for
any `k`) every in-degree entry is non-negative: each decrement consumes a
distinct previously counted edge exactly once. -/
theorem claim9_inDegree_nonneg (adj : List (List Nat)) (hwf : wellFormed adj)
    (k : Nat) (v : Nat) (hv : v < adj.length) :
    0 ≤ (kahnRun adj k (initState adj)).inDegree.getD v 0 := by
  rw [initState_eq_proj, kahnRun_sim adj k (initG adj)]
  show 0 ≤ (kahnRunG adj k (initG adj)).inDeg.getD v 0
  have hinv := inv_run adj k (initG adj) (inv_init adj)
  have hdeq := hinv.deg_eq v hv
  have hle := inCount_le_degIn adj v hinv.popped_nodup hinv.popped_lt
  omega

/-- Witness for C9 at `[[1]]`, after one loop iteration, vertex 0. -/
theorem claim9_witness :
    wellFormed [[1]] ∧ 0 ≤ (kahnRun [[1]] 1 (initState [[1]])).inDegree.getD 0 0 :=
  ⟨by decide, claim9_inDegree_nonneg [[1]] (by decide) 1 0 (by decide)⟩

/-- C10: at every point during the worklist loop the list of vertices that
have ever been pushed (the popped prefix in pop order followed by the
current queue) contains no duplicates - each vertex is pushed at most once -
and consequently the processed counter never exceeds the vertex count. -/
theorem claim10_pushed_once (adj : List (List Nat)) (hwf : wellFormed adj)
    (k : Nat) :
    ((kahnRunG adj k (initG adj)).popped ++ (kahnRunG adj k (initG adj)).q).Nodup ∧
      (kahnRun adj k (initState adj)).processedCount ≤ adj.length := by
  have hinv := inv_run adj k (initG adj) (inv_init adj)
  constructor
  · rw [List.nodup_append]
    exact ⟨hinv.popped_nodup, hinv.q_nodup, fun a ha hb => hinv.disj a ha hb⟩
  · rw [initState_eq_proj, kahnRun_sim adj k (initG adj)]
    show (kahnRunG adj k (initG adj)).popped.length ≤ adj.length
    exact nodup_lt_length_le hinv.popped_nodup hinv.popped_lt

/-- Witness for C10 at `[[1]]` after one loop iteration. -/
theorem claim10_witness :
    wellFormed [[1]] ∧
      (((kahnRunG [[1]] 1 (initG [[1]])).popped ++ (kahnRunG [[1]] 1 (initG [[1]])).q).Nodup ∧
        (kahnRun [[1]] 1 (initState [[1]])).processedCount ≤ 1) := by
  refine ⟨by decide, ?_⟩
  have h := claim10_pushed_once [[1]] (by decide) 1
  exact h

end CyclicBFS
